import Mathlib

/-!
Verification of the GF(2) linear-algebra engine (`graphix/linalg.py`).

Matrices on GF(2) are embedded as `Matrix (Fin m) (Fin n) (ZMod 2)`.
Each definition below is a shallow embedding of the correspondingly named
method of the Python class `MatGF2`; in-place mutation is rendered as
explicit state passing, and `numpy` indexing of a 2-D array is rendered
through the total accessor `ent` (out-of-range access never occurs on the
executions the theorems speak about).
-/

namespace Graphix

abbrev GF2 := ZMod 2

abbrev Mat (m n : ℕ) := Matrix (Fin m) (Fin n) GF2

/-- Total entry accessor: `A.data[i, j]` (all accesses performed by the
source are in range; out-of-range reads default to `0`). -/
def ent {m n : ℕ} (A : Mat m n) (i j : ℕ) : GF2 :=
  if h : i < m ∧ j < n then A ⟨i, h.1⟩ ⟨j, h.2⟩ else 0

/-- Embedding of `__matmul__`: `self.data @ other.data` over GF(2). -/
def matmul {m n k : ℕ} (A : Mat m n) (B : Mat n k) : Mat m k := A * B

/-- Embedding of `swap_row`: `self.data[[row1, row2]] = self.data[[row2, row1]]`. -/
def swap_row {m n : ℕ} (A : Mat m n) (r1 r2 : ℕ) : Mat m n :=
  Matrix.of fun i j => if i.val = r1 then ent A r2 j.val
    else if i.val = r2 then ent A r1 j.val else A i j

/-- Embedding of `swap_col`: `self.data[:, [col1, col2]] = self.data[:, [col2, col1]]`. -/
def swap_col {m n : ℕ} (A : Mat m n) (c1 c2 : ℕ) : Mat m n :=
  Matrix.of fun i j => if j.val = c1 then ent A i.val c2
    else if j.val = c2 then ent A i.val c1 else A i j

/-- Embedding of `permute_row`: `self.data = self.data[row_permutation, :]` — numpy fancy
indexing with an in-range index list of length `L`: row `i` of the result is
row `p i` of the input.  No bijectivity check is performed by the source. -/
def permute_row {m n L : ℕ} (A : Mat m n) (p : Fin L → Fin m) : Mat L n :=
  Matrix.of fun i j => A (p i) j

/-- Embedding of `permute_col`: `self.data = self.data[:, col_permutation]`. -/
def permute_col {m n L : ℕ} (A : Mat m n) (q : Fin L → Fin n) : Mat m L :=
  Matrix.of fun i j => A i (q j)

/-- Embedding of `np.diagonal(self.data)` as a list of length `min m n`. -/
def diagList {m n : ℕ} (A : Mat m n) : List GF2 :=
  (List.range (min m n)).map fun i => ent A i i

/-- Embedding of `diag.nonzero()[0]`: indices of nonzero diagonal entries, in order. -/
def nonzeroDiagIdx {m n : ℕ} (A : Mat m n) : List ℕ :=
  (List.range (min m n)).filter fun i => decide (ent A i i ≠ 0)

/-- Embedding of `len(np.diag(mat_a.data).nonzero()[0])`. -/
def diagNonzeroCount {m n : ℕ} (A : Mat m n) : ℕ :=
  (nonzeroDiagIdx A).length

/-- The `for i in range(len(nonzero_diag_index))` loop of
`is_canonical_form`, walking the index list with the loop counter `i`
alongside, with its early `break` (value `true`: fall through to the
remaining checks) and early `return False` (value `false`).  The guard
`diag[nonzero_diag_index[i]] == 0` tests an entry selected for being
nonzero, so the body is unreachable; it is embedded nonetheless. -/
def canonLoop (dl : List GF2) : List ℕ → ℕ → Bool
  | [], _ => true
  | idx :: rest, i =>
    if dl.getD idx 0 = 0 then
      (dl.drop i).countP (fun x => decide (x ≠ 0)) != 0
    else canonLoop dl rest (i + 1)

/-- Embedding of `is_canonical_form`: the diagonal loop, then
`self.data[:rank, :rank] - diag(diagonal(self.data[:rank, :rank])) == 0`
(the leading block is a diagonal matrix), then
`count_nonzero(self.data[rank:, :]) == 0` (all rows from `rank` on vanish),
where `rank = len(nonzero_diag_index)`. -/
def is_canonical_form {m n : ℕ} (A : Mat m n) : Bool :=
  let dl := diagList A
  let nz := nonzeroDiagIdx A
  let rank := nz.length
  canonLoop dl nz 0 &&
    decide (∀ i < rank, ∀ j < rank, ent A i j = if i = j then ent A i i else 0) &&
    decide (∀ i, rank ≤ i → i < m → ∀ j < n, ent A i j = 0)

/-- Embedding of `mat_a.data[row:, row:].nonzero()` reduced to the entry the source uses:
the first nonzero position of the trailing submatrix in row-major order,
reported in full-matrix coordinates (`pivot[0][0] + row`, `pivot[1][0] + row`),
or `none` when the trailing submatrix vanishes. -/
def findPivot {m n : ℕ} (A : Mat m n) (k : ℕ) : Option (ℕ × ℕ) :=
  ((List.range m).product (List.range n)).find? fun p =>
    decide (k ≤ p.1 ∧ k ≤ p.2 ∧ ent A p.1 p.2 ≠ 0)

/-- The inner elimination loop on `mat_a`: every row other than `row` that
is nonzero in column `row` gets row `row` XORed into it
(`mat_a.data[eliminate_row, :] += mat_a.data[row, :]`). -/
def eliminate {m n : ℕ} (A : Mat m n) (row : ℕ) : Mat m n :=
  Matrix.of fun i j =>
    if i.val ≠ row ∧ ent A i.val row ≠ 0 then A i j + ent A row j.val else A i j

/-- The mirrored update of `b` (`b.data[eliminate_row, :] += b.data[row, :]`),
driven by the nonzero pattern of column `row` of `mat_a`. -/
def eliminateB {m n nb : ℕ} (A : Mat m n) (b : Mat m nb) (row : ℕ) : Mat m nb :=
  Matrix.of fun i j =>
    if i.val ≠ row ∧ ent A i.val row ≠ 0 then b i j + ent b row j.val else b i j

/-- The permutation bookkeeping of `forward_eliminate`: look up the positions
currently holding the values `a` and `b`, then store `b` at the former and
`a` at the latter (both positions are computed before either write). -/
def permSwapVals (l : List ℕ) (a b : ℕ) : List ℕ :=
  let i1 := l.indexOf a
  let i2 := l.indexOf b
  (l.set i1 b).set i2 a

/-- One complete run of the `for row in range(max_rank)` loop of
`forward_eliminate`, starting at `row` with `fuel` iterations left
(`row + fuel = max_rank`); `findPivot = none` renders the `break`. -/
def elimLoop {m n nb : ℕ} (A : Mat m n) (b : Mat m nb) (rp cp : List ℕ)
    (row fuel : ℕ) : Mat m n × Mat m nb × List ℕ × List ℕ :=
  match fuel with
  | 0 => (A, b, rp, cp)
  | fuel + 1 =>
    if ent A row row = 0 then
      match findPivot A row with
      | none => (A, b, rp, cp)
      | some (pr, pc) =>
        let A1 := if pr ≠ row then swap_row A row pr else A
        let b1 := if pr ≠ row then swap_row b row pr else b
        let rp1 := if pr ≠ row then permSwapVals rp row pr else rp
        let A2 := if pc ≠ row then swap_col A1 row pc else A1
        let cp1 := if pc ≠ row then permSwapVals cp row pc else cp
        elimLoop (eliminate A2 row) (eliminateB A2 b1 row) rp1 cp1 (row + 1) fuel
    else
      elimLoop (eliminate A row) (eliminateB A b row) rp cp (row + 1) fuel

/-- Embedding of `forward_eliminate` with an explicit right-hand side `b`
(the source default is the zero column `np.zeros((rows, 1))`). -/
def forward_eliminate {m n nb : ℕ} (A : Mat m n) (b : Mat m nb) :
    Mat m n × Mat m nb × List ℕ × List ℕ :=
  elimLoop A b (List.range m) (List.range n) 0 (min m n)

/-- Embedding of `forward_eliminate` together with the state of the receiver after the
call: with `copy=True` the receiver is untouched, otherwise it holds the
eliminated matrix. -/
def forward_eliminate_full {m n nb : ℕ} (A : Mat m n) (b : Mat m nb) (copy : Bool) :
    (Mat m n × Mat m nb × List ℕ × List ℕ) × Mat m n :=
  let r := forward_eliminate A b
  (r, if copy then A else r.1)

/-- Embedding of `get_rank`: count the nonzero diagonal entries, of the matrix itself when
it is already canonical, else of the forward elimination of a copy. -/
def get_rank {m n : ℕ} (A : Mat m n) : ℕ :=
  if is_canonical_form A then diagNonzeroCount A
  else diagNonzeroCount (forward_eliminate A (0 : Mat m 1)).1

/-- Embedding of `get_rank` together with the receiver's state after the call
(`forward_eliminate` is invoked with `copy=True`, so the receiver is
never mutated). -/
def get_rank_state {m n : ℕ} (A : Mat m n) : ℕ × Mat m n :=
  if is_canonical_form A then (diagNonzeroCount A, A)
  else
    let fe := forward_eliminate_full A (0 : Mat m 1) true
    (diagNonzeroCount fe.1.1, fe.2)

/-- A solution entry of `backward_substitute`: `sympy.nan` for an
unsatisfiable column, or a boolean expression — a constant XORed with a
list of kernel symbols `x_k` (a bare symbol is the XOR of `false` with it). -/
inductive SolEntry where
  | nan : SolEntry
  | expr (c : Bool) (syms : List ℕ) : SolEntry
deriving DecidableEq, Repr

/-- An entry is a boolean constant: an expression with no kernel symbols. -/
def SolEntry.isConst : SolEntry → Bool
  | .expr _ [] => true
  | _ => false

/-- Evaluate a constant entry to GF(2) (`0` on symbols and on `nan`,
which the theorems never rely on). -/
def SolEntry.toGF2 : SolEntry → GF2
  | .expr c [] => if c then 1 else 0
  | _ => 0

/-- One solved entry: `sol = sp.true if b_col[row] == 1 else sp.false`,
then `sol ^= kernels[k]` for each `k` in
`np.nonzero(self.data[row, rank:])[0]` (offsets into the free columns). -/
def solEntryAt {m n nb : ℕ} (A : Mat m n) (rank : ℕ) (b : Mat m nb)
    (j : Fin nb) (row : ℕ) : SolEntry :=
  .expr (ent b row j.val = 1)
    (((List.range n).filter fun jj => decide (rank ≤ jj ∧ ent A row jj ≠ 0)).map
      fun jj => jj - rank)

/-- One output column of `backward_substitute`: all-`nan` when the column of
`b` is nonzero somewhere at row index `≥ rank`, else the solved entries for
rows `0..rank-1` followed by the bare kernel symbols. -/
def backCol {m n nb : ℕ} (A : Mat m n) (rank : ℕ) (b : Mat m nb) (j : Fin nb) :
    List SolEntry :=
  if (List.range m).any (fun i => decide (rank ≤ i) && decide (ent b i j.val ≠ 0)) then
    List.replicate n SolEntry.nan
  else
    ((List.range rank).map fun row => solEntryAt A rank b j row) ++
      ((List.range (n - rank)).map fun k => SolEntry.expr false [k])

/-- The value computation of `backward_substitute` with the rank supplied:
the solution matrix `x` of shape `(cols, b.cols)` (the source's
`np.array(x).T`) and the kernel symbol tuple `sp.symbols` rendered as the
list of its indices. -/
def backward_substitute_core {m n nb : ℕ} (A : Mat m n) (b : Mat m nb) (rank : ℕ) :
    Matrix (Fin n) (Fin nb) SolEntry × List ℕ :=
  (Matrix.of fun i j => (backCol A rank b j).getD i.val SolEntry.nan,
    List.range (n - rank))

/-- Embedding of `backward_substitute` (value part): `rank = self.get_rank()`, then the
per-column solve. -/
def backward_substitute {m n nb : ℕ} (A : Mat m n) (b : Mat m nb) :
    Matrix (Fin n) (Fin nb) SolEntry × List ℕ :=
  backward_substitute_core A b (get_rank A)

/-- Embedding of `backward_substitute` together with the states of the receiver and of
`b` after the call: the body only reads them (`get_rank` eliminates a copy),
so both come back as they went in. -/
def backward_substitute_state {m n nb : ℕ} (A : Mat m n) (b : Mat m nb) :
    (Matrix (Fin n) (Fin nb) SolEntry × List ℕ) × Mat m n × Mat m nb :=
  let rs := get_rank_state A
  (backward_substitute_core A b rs.1, rs.2, b)

/-! ### Basic facts about GF(2) and entry access -/

lemma gf2_ne_zero {x : GF2} (h : x ≠ 0) : x = 1 := by revert h; revert x; decide

lemma gf2_add_self (x : GF2) : x + x = 0 := by revert x; decide

lemma ent_mk {m n : ℕ} (A : Mat m n) {i j : ℕ} (hi : i < m) (hj : j < n) :
    ent A i j = A ⟨i, hi⟩ ⟨j, hj⟩ := dif_pos ⟨hi, hj⟩

lemma ent_eq {m n : ℕ} (A : Mat m n) (i : Fin m) (j : Fin n) :
    ent A i.val j.val = A i j := ent_mk A i.isLt j.isLt

lemma ent_zero_of_ge {m n : ℕ} (A : Mat m n) {i j : ℕ} (h : m ≤ i ∨ n ≤ j) :
    ent A i j = 0 := by
  rw [ent, dif_neg]; omega

/-! ### Entry descriptions of the elimination steps -/

lemma ent_swap_row {m n : ℕ} (A : Mat m n) (r1 r2 i j : ℕ) (hi : i < m) (hj : j < n) :
    ent (swap_row A r1 r2) i j =
      if i = r1 then ent A r2 j else if i = r2 then ent A r1 j else ent A i j := by
  rw [ent_mk _ hi hj, swap_row, Matrix.of_apply, ent_mk A hi hj]

lemma ent_swap_col {m n : ℕ} (A : Mat m n) (c1 c2 i j : ℕ) (hi : i < m) (hj : j < n) :
    ent (swap_col A c1 c2) i j =
      if j = c1 then ent A i c2 else if j = c2 then ent A i c1 else ent A i j := by
  rw [ent_mk _ hi hj, swap_col, Matrix.of_apply, ent_mk A hi hj]

lemma ent_eliminate {m n : ℕ} (A : Mat m n) (row i j : ℕ) (hi : i < m) (hj : j < n) :
    ent (eliminate A row) i j =
      if i ≠ row ∧ ent A i row ≠ 0 then ent A i j + ent A row j else ent A i j := by
  rw [ent_mk _ hi hj, eliminate, Matrix.of_apply, ent_mk A hi hj]

lemma ent_eliminateB {m n nb : ℕ} (A : Mat m n) (b : Mat m nb) (row i j : ℕ)
    (hi : i < m) (hj : j < nb) :
    ent (eliminateB A b row) i j =
      if i ≠ row ∧ ent A i row ≠ 0 then ent b i j + ent b row j else ent b i j := by
  rw [ent_mk _ hi hj, eliminateB, Matrix.of_apply, ent_mk b hi hj]

/-! ### The pivot search -/

lemma findPivot_some {m n : ℕ} {A : Mat m n} {k pr pc : ℕ}
    (h : findPivot A k = some (pr, pc)) :
    k ≤ pr ∧ pr < m ∧ k ≤ pc ∧ pc < n ∧ ent A pr pc ≠ 0 := by
  have hmem := List.mem_of_find?_eq_some h
  have hp := List.find?_some h
  rw [List.pair_mem_product] at hmem
  simp only [List.mem_range] at hmem
  have hd := of_decide_eq_true hp
  exact ⟨hd.1, hmem.1, hd.2.1, hmem.2, hd.2.2⟩

lemma findPivot_none {m n : ℕ} {A : Mat m n} {k : ℕ}
    (h : findPivot A k = none) {i j : ℕ} (hi : k ≤ i) (hj : k ≤ j) :
    ent A i j = 0 := by
  by_cases hb : i < m ∧ j < n
  · have hmem : (i, j) ∈ (List.range m).product (List.range n) :=
      List.pair_mem_product.mpr ⟨List.mem_range.mpr hb.1, List.mem_range.mpr hb.2⟩
    have hnp := List.find?_eq_none.mp h _ hmem
    by_contra hne
    exact hnp (decide_eq_true ⟨hi, hj, hne⟩)
  · exact ent_zero_of_ge A (by omega)

lemma findPivot_eq_none {m n : ℕ} {A : Mat m n} {k : ℕ}
    (h : ∀ i j, k ≤ i → k ≤ j → i < m → j < n → ent A i j = 0) :
    findPivot A k = none := by
  rw [findPivot, List.find?_eq_none]
  rintro ⟨i, j⟩ hmem
  rw [List.pair_mem_product] at hmem
  simp only [List.mem_range] at hmem
  simp only [decide_eq_true_eq, Bool.not_eq_true]
  rintro ⟨hi, hj, hne⟩
  exact hne (h i j hi hj hmem.1 hmem.2)

/-! ### The canonical-form predicate, unfolded -/

lemma diagList_getD {m n : ℕ} (A : Mat m n) {i : ℕ} (h : i < min m n) :
    (diagList A).getD i 0 = ent A i i := by
  rw [diagList, List.getD]
  simp [List.getElem?_map, List.getElem?_range h]

lemma nonzeroDiagIdx_mem {m n : ℕ} {A : Mat m n} {x : ℕ} :
    x ∈ nonzeroDiagIdx A ↔ x < min m n ∧ ent A x x ≠ 0 := by
  simp [nonzeroDiagIdx, List.mem_filter, List.mem_range]

lemma nonzeroDiagIdx_nodup {m n : ℕ} (A : Mat m n) : (nonzeroDiagIdx A).Nodup :=
  (List.nodup_range _).filter _

/-- The guard of the diagonal loop of `is_canonical_form` tests an entry
that was selected for being nonzero: the loop always falls through. -/
lemma canonLoop_of_nonzero (dl : List GF2) :
    ∀ (l : List ℕ), (∀ x ∈ l, dl.getD x 0 ≠ 0) → ∀ i, canonLoop dl l i = true := by
  intro l
  induction l with
  | nil => intro _ _; rfl
  | cons idx rest ihr =>
    intro hl i
    rw [canonLoop, if_neg (hl idx (List.mem_cons_self idx rest))]
    exact ihr (fun x hx => hl x (List.mem_cons_of_mem idx hx)) (i + 1)

lemma canonLoop_diag_true {m n : ℕ} (A : Mat m n) (i : ℕ) :
    canonLoop (diagList A) (nonzeroDiagIdx A) i = true := by
  apply canonLoop_of_nonzero
  intro x hx
  rw [nonzeroDiagIdx_mem] at hx
  rw [diagList_getD A hx.1]
  exact hx.2

lemma is_canonical_form_iff {m n : ℕ} {A : Mat m n} :
    is_canonical_form A = true ↔
      ((∀ i < diagNonzeroCount A, ∀ j < diagNonzeroCount A,
          ent A i j = if i = j then ent A i i else 0) ∧
        ∀ i, diagNonzeroCount A ≤ i → i < m → ∀ j < n, ent A i j = 0) := by
  rw [is_canonical_form]
  simp only [canonLoop_diag_true, Bool.true_and, Bool.and_eq_true, decide_eq_true_eq]
  exact Iff.rfl

/-! ### The invariant of Gauss-Jordan elimination: after the first `k` pivot
steps, the leading `k` columns are the standard basis columns. -/

def Inv {m n : ℕ} (A : Mat m n) (k : ℕ) : Prop :=
  ∀ i j : ℕ, i < m → j < n → j < k → ent A i j = if i = j then 1 else 0

lemma inv_zero {m n : ℕ} (A : Mat m n) : Inv A 0 := by
  intro i j _ _ hj
  omega

lemma inv_swap_row {m n : ℕ} {A : Mat m n} {k r2 : ℕ} (hr2 : k ≤ r2)
    (hInv : Inv A k) : Inv (swap_row A k r2) k := by
  intro i j hi hj hjk
  rw [ent_swap_row A k r2 i j hi hj]
  have hzero : ∀ i' : ℕ, k ≤ i' → ent A i' j = 0 := by
    intro i' hi'
    by_cases hm : i' < m
    · rw [hInv i' j hm hj hjk, if_neg (by omega)]
    · exact ent_zero_of_ge A (by omega)
  by_cases h1 : i = k
  · rw [if_pos h1, hzero r2 hr2, if_neg (show ¬i = j by omega)]
  · rw [if_neg h1]
    by_cases h2 : i = r2
    · rw [if_pos h2, hzero k (le_refl k), if_neg (show ¬i = j by omega)]
    · rw [if_neg h2]
      exact hInv i j hi hj hjk

lemma inv_swap_col {m n : ℕ} {A : Mat m n} {k c2 : ℕ} (hc2 : k ≤ c2)
    (hInv : Inv A k) : Inv (swap_col A k c2) k := by
  intro i j hi hj hjk
  rw [ent_swap_col A k c2 i j hi hj, if_neg (by omega), if_neg (by omega)]
  exact hInv i j hi hj hjk

lemma inv_eliminate {m n : ℕ} {A : Mat m n} {k : ℕ} (hkm : k < m) (hkn : k < n)
    (hInv : Inv A k) (hkk : ent A k k ≠ 0) : Inv (eliminate A k) (k + 1) := by
  intro i j hi hj hjk
  rw [ent_eliminate A k i j hi hj]
  by_cases hjlt : j < k
  · have hIJ := hInv i j hi hj hjlt
    have hrow : ent A k j = 0 := by
      rw [hInv k j hkm hj hjlt, if_neg (by omega)]
    by_cases h1 : i ≠ k ∧ ent A i k ≠ 0
    · rw [if_pos h1, hrow, add_zero, hIJ]
    · rw [if_neg h1, hIJ]
  · have hjek : j = k := by omega
    subst hjek
    by_cases hik : i = j
    · rw [if_neg (fun hc => hc.1 hik), if_pos hik, hik]
      exact gf2_ne_zero hkk
    · rw [if_neg hik]
      by_cases hnz : ent A i j ≠ 0
      · rw [if_pos ⟨hik, hnz⟩, gf2_ne_zero hnz, gf2_ne_zero hkk]
        decide
      · rw [if_neg (fun hc => hnz hc.2)]
        push_neg at hnz
        exact hnz

/-- A matrix satisfying the invariant up to `k` whose trailing submatrix
(rows and columns `≥ k`) vanishes is in canonical form. -/
lemma inv_canonical {m n : ℕ} {A : Mat m n} {k : ℕ} (hk : k ≤ min m n)
    (hInv : Inv A k)
    (htr : ∀ i j : ℕ, k ≤ i → k ≤ j → i < m → j < n → ent A i j = 0) :
    is_canonical_form A = true := by
  have hd1 : ∀ i, i < k → ent A i i = 1 := by
    intro i hik
    rw [hInv i i (by omega) (by omega) hik, if_pos rfl]
  have hd0 : ∀ i, k ≤ i → ent A i i = 0 := by
    intro i hik
    by_cases hb : i < m ∧ i < n
    · exact htr i i hik hik hb.1 hb.2
    · exact ent_zero_of_ge A (by omega)
  have hnz : nonzeroDiagIdx A = List.range k := by
    rw [nonzeroDiagIdx]
    have hsplit : min m n = k + (min m n - k) := by omega
    rw [hsplit, List.range_add, List.filter_append]
    have h1 : (List.range k).filter (fun i => decide (ent A i i ≠ 0)) = List.range k := by
      rw [List.filter_eq_self]
      intro a ha
      exact decide_eq_true (by rw [hd1 a (List.mem_range.mp ha)]; decide)
    have h2 : ((List.range (min m n - k)).map (k + ·)).filter
        (fun i => decide (ent A i i ≠ 0)) = [] := by
      rw [List.filter_eq_nil_iff]
      intro a ha
      obtain ⟨x, _, hx⟩ := List.mem_map.mp ha
      simp only [decide_eq_true_eq, Decidable.not_not]
      exact hx ▸ hd0 (k + x) (by omega)
    rw [h1, h2, List.append_nil]
  have hcount : diagNonzeroCount A = k := by
    rw [diagNonzeroCount, hnz, List.length_range]
  rw [is_canonical_form_iff, hcount]
  constructor
  · intro i hik j hjk
    rw [hInv i j (by omega) (by omega) hjk]
    by_cases hij : i = j
    · subst hij
      rw [if_pos rfl, if_pos rfl, hd1 i hik]
    · rw [if_neg hij, if_neg hij]
  · intro i hik him j hjn
    by_cases hjk : j < k
    · rw [hInv i j him hjn hjk, if_neg (by omega)]
    · exact htr i j hik (by omega) him hjn

/-! ### The pivot entry after the swaps -/

lemma pivot_one {m n : ℕ} {A : Mat m n} {k pr pc : ℕ}
    (hp : findPivot A k = some (pr, pc)) :
    ent (if pc ≠ k then swap_col (if pr ≠ k then swap_row A k pr else A) k pc
         else if pr ≠ k then swap_row A k pr else A) k k = 1 := by
  obtain ⟨hkpr, hprm, hkpc, hpcn, hne⟩ := findPivot_some hp
  have hkm : k < m := lt_of_le_of_lt hkpr hprm
  have hkn : k < n := lt_of_le_of_lt hkpc hpcn
  set A1 := if pr ≠ k then swap_row A k pr else A with hA1
  have h1 : ent A1 k pc = ent A pr pc := by
    rw [hA1]
    by_cases hprk : pr ≠ k
    · rw [if_pos hprk, ent_swap_row A k pr k pc hkm hpcn, if_pos rfl]
    · rw [if_neg hprk]
      push_neg at hprk
      rw [hprk]
  by_cases hpck : pc ≠ k
  · rw [if_pos hpck, ent_swap_col A1 k pc k k hkm hkn, if_pos rfl, h1]
    exact gf2_ne_zero hne
  · rw [if_neg hpck]
    push_neg at hpck
    subst hpck
    rw [h1]
    exact gf2_ne_zero hne

/-! ### The elimination loop produces a canonical-form matrix -/

lemma elimLoop_canonical {m n nb : ℕ} :
    ∀ (fuel : ℕ) (A : Mat m n) (b : Mat m nb) (rp cp : List ℕ) (row : ℕ),
      row + fuel = min m n → Inv A row →
      is_canonical_form (elimLoop A b rp cp row fuel).1 = true := by
  intro fuel
  induction fuel with
  | zero =>
    intro A b rp cp row hrow hInv
    exact inv_canonical (by omega) hInv
      (fun i j hi hj him hjn => (by omega : False).elim)
  | succ fuel ih =>
    intro A b rp cp row hrow hInv
    rw [elimLoop]
    by_cases h0 : ent A row row = 0
    · rw [if_pos h0]
      rcases hfp : findPivot A row with _ | ⟨pr, pc⟩
      · exact inv_canonical (by omega) hInv
          (fun i j hi hj him hjn => findPivot_none hfp hi hj)
      · obtain ⟨hrpr, hprm, hrpc, hpcn, hne⟩ := findPivot_some hfp
        have hInv1 : Inv (if pr ≠ row then swap_row A row pr else A) row := by
          by_cases hprk : pr ≠ row
          · rw [if_pos hprk]; exact inv_swap_row hrpr hInv
          · rw [if_neg hprk]; exact hInv
        have hInv2 : Inv (if pc ≠ row then
            swap_col (if pr ≠ row then swap_row A row pr else A) row pc
            else if pr ≠ row then swap_row A row pr else A) row := by
          by_cases hpck : pc ≠ row
          · rw [if_pos hpck]; exact inv_swap_col hrpc hInv1
          · rw [if_neg hpck]; exact hInv1
        have h22 := pivot_one hfp
        exact ih _ _ _ _ _ (by omega)
          (inv_eliminate (by omega) (by omega) hInv2 (by rw [h22]; exact one_ne_zero))
    · rw [if_neg h0]
      exact ih _ _ _ _ _ (by omega)
        (inv_eliminate (by omega) (by omega) hInv h0)

/-- C1: every matrix returned by `forward_eliminate` — whether the pivot
loop ran to the end or terminated early on a vanishing trailing
submatrix — satisfies `is_canonical_form`. -/
theorem forward_eliminate_canonical {m n nb : ℕ} (A : Mat m n) (b : Mat m nb) :
    is_canonical_form (forward_eliminate A b).1 = true :=
  elimLoop_canonical (min m n) A b _ _ 0 (by omega) (inv_zero A)

/-- C4: whenever the pivot search of `forward_eliminate` finds a nonzero
entry in the trailing submatrix, the entry at `(k, k)` after the row swap
and the column swap equals 1, so the defensive assertion
`assert mat_a.data[row, row] == 1` never fails. -/
theorem pivot_assert_holds {m n : ℕ} (A : Mat m n) (row pr pc : ℕ)
    (_h0 : ent A row row = 0) (hp : findPivot A row = some (pr, pc)) :
    ent (if pc ≠ row then swap_col (if pr ≠ row then swap_row A row pr else A) row pc
         else if pr ≠ row then swap_row A row pr else A) row row = 1 :=
  pivot_one hp

theorem pivot_assert_holds_witness :
    (ent (!![0,1;1,0] : Mat 2 2) 0 0 = 0 ∧
      findPivot (!![0,1;1,0] : Mat 2 2) 0 = some (0, 1)) ∧
    ent (if (1 : ℕ) ≠ 0 then
          swap_col (if (0 : ℕ) ≠ 0 then swap_row (!![0,1;1,0] : Mat 2 2) 0 0
            else (!![0,1;1,0] : Mat 2 2)) 0 1
         else if (0 : ℕ) ≠ 0 then swap_row (!![0,1;1,0] : Mat 2 2) 0 0
            else (!![0,1;1,0] : Mat 2 2)) 0 0 = 1 :=
  ⟨⟨by decide, by decide⟩, pivot_assert_holds _ 0 0 1 (by decide) (by decide)⟩

/-! ### Canonical structure of a matrix passing `is_canonical_form` -/

lemma canonical_structure {m n : ℕ} {A : Mat m n} (h : is_canonical_form A = true) :
    diagNonzeroCount A ≤ min m n ∧
      (∀ i j : ℕ, i < diagNonzeroCount A → j < diagNonzeroCount A →
        ent A i j = if i = j then 1 else 0) ∧
      ∀ i, diagNonzeroCount A ≤ i → i < m → ∀ j < n, ent A i j = 0 := by
  obtain ⟨hblock, hrows⟩ := is_canonical_form_iff.mp h
  have hle : diagNonzeroCount A ≤ min m n := by
    rw [diagNonzeroCount]
    calc (nonzeroDiagIdx A).length ≤ (List.range (min m n)).length :=
          List.length_filter_le _ _
      _ = min m n := List.length_range _
  refine ⟨hle, ?_, hrows⟩
  have hel : ∀ x ∈ nonzeroDiagIdx A, x < diagNonzeroCount A := by
    intro x hx
    rw [nonzeroDiagIdx_mem] at hx
    by_contra hge
    push_neg at hge
    exact hx.2 (hrows x hge (by omega) x (by omega))
  have hmem : ∀ v, v < diagNonzeroCount A → v ∈ nonzeroDiagIdx A := by
    intro v hv
    have hsub : (nonzeroDiagIdx A).toFinset ⊆ Finset.range (diagNonzeroCount A) := by
      intro x hx
      rw [List.mem_toFinset] at hx
      exact Finset.mem_range.mpr (hel x hx)
    have hcard : (nonzeroDiagIdx A).toFinset.card = diagNonzeroCount A :=
      List.toFinset_card_of_nodup (nonzeroDiagIdx_nodup A)
    have heq := Finset.eq_of_subset_of_card_le hsub
      (by rw [hcard, Finset.card_range])
    have : v ∈ (nonzeroDiagIdx A).toFinset := by
      rw [heq]
      exact Finset.mem_range.mpr hv
    exact List.mem_toFinset.mp this
  have hdiag1 : ∀ i, i < diagNonzeroCount A → ent A i i = 1 := fun i hi =>
    gf2_ne_zero (nonzeroDiagIdx_mem.mp (hmem i hi)).2
  intro i j hi hj
  rw [hblock i hi j hj]
  by_cases hij : i = j
  · subst hij
    rw [if_pos rfl, if_pos rfl, hdiag1 i hi]
  · rw [if_neg hij, if_neg hij]

/-! ### On a canonical-form matrix the elimination loop is the identity -/

lemma elimLoop_id_of_canonical {m n nb : ℕ} {A : Mat m n}
    (hc : is_canonical_form A = true) :
    ∀ (fuel : ℕ) (b : Mat m nb) (rp cp : List ℕ) (row : ℕ),
      row + fuel = min m n → row ≤ diagNonzeroCount A →
      elimLoop A b rp cp row fuel = (A, b, rp, cp) := by
  obtain ⟨hT, hblock, hrows⟩ := canonical_structure hc
  intro fuel
  induction fuel with
  | zero => intro b rp cp row hrow hr; rfl
  | succ fuel ih =>
    intro b rp cp row hrow hr
    have hrm : row < m := by omega
    have hrn : row < n := by omega
    rw [elimLoop]
    by_cases hlt : row < diagNonzeroCount A
    · have h1 : ent A row row = 1 := by
        rw [hblock row row hlt hlt, if_pos rfl]
      have hcol : ∀ i : ℕ, i < m → i ≠ row → ent A i row = 0 := by
        intro i him hir
        by_cases hilt : i < diagNonzeroCount A
        · rw [hblock i row hilt hlt, if_neg hir]
        · exact hrows i (by omega) him row hrn
      have hel : eliminate A row = A := by
        apply Matrix.ext
        intro i j
        show (if i.val ≠ row ∧ ent A i.val row ≠ 0 then A i j + ent A row j.val
          else A i j) = A i j
        rw [if_neg]
        rintro ⟨hir, hnz⟩
        exact hnz (hcol i.val i.isLt hir)
      have helB : eliminateB A b row = b := by
        apply Matrix.ext
        intro i j
        show (if i.val ≠ row ∧ ent A i.val row ≠ 0 then b i j + ent b row j.val
          else b i j) = b i j
        rw [if_neg]
        rintro ⟨hir, hnz⟩
        exact hnz (hcol i.val i.isLt hir)
      rw [if_neg (by rw [h1]; exact one_ne_zero), hel, helB]
      exact ih b rp cp (row + 1) (by omega) (by omega)
    · have h0 : ent A row row = 0 := hrows row (by omega) hrm row hrn
      have hnone : findPivot A row = none :=
        findPivot_eq_none (fun i j hi hj him hjn => hrows i (by omega) him j hjn)
      rw [if_pos h0, hnone]

/-- C9: on a matrix already in canonical form, `forward_eliminate` changes
nothing: the matrix and the right-hand side come back as they went in, and
both returned permutations are the identity. -/
theorem forward_eliminate_id_on_canonical {m n nb : ℕ} (A : Mat m n) (b : Mat m nb)
    (h : is_canonical_form A = true) :
    forward_eliminate A b = (A, b, List.range m, List.range n) :=
  elimLoop_id_of_canonical h (min m n) b _ _ 0 (by omega) (Nat.zero_le _)

theorem forward_eliminate_id_on_canonical_witness :
    is_canonical_form (!![1,0;0,0] : Mat 2 2) = true ∧
    forward_eliminate (!![1,0;0,0] : Mat 2 2) (!![1;1] : Mat 2 1) =
      (!![1,0;0,0], !![1;1], List.range 2, List.range 2) :=
  ⟨by decide, forward_eliminate_id_on_canonical _ _ (by decide)⟩

/-! ### The canonical-form predicate rejects diagonal gaps -/

/-- C6: a zero diagonal entry followed, at any later diagonal position, by a
nonzero diagonal entry makes `is_canonical_form` return `False`. -/
theorem canonical_rejects_diag_gap {m n : ℕ} (A : Mat m n) (i j : ℕ)
    (hj : j < min m n) (hij : i < j) (hi0 : ent A i i = 0) (hj1 : ent A j j ≠ 0) :
    is_canonical_form A = false := by
  by_contra hc
  rw [Bool.not_eq_false] at hc
  obtain ⟨hT, hblock, hrows⟩ := canonical_structure hc
  by_cases hjr : j < diagNonzeroCount A
  · have hone := hblock i i (by omega) (by omega)
    rw [if_pos rfl] at hone
    rw [hone] at hi0
    exact one_ne_zero hi0
  · exact hj1 (hrows j (by omega) (by omega) j (by omega))

theorem canonical_rejects_diag_gap_witness :
    ((1 : ℕ) < min 2 2 ∧ (0 : ℕ) < 1 ∧ ent (!![0,0;0,1] : Mat 2 2) 0 0 = 0 ∧
      ent (!![0,0;0,1] : Mat 2 2) 1 1 ≠ 0) ∧
    is_canonical_form (!![0,0;0,1] : Mat 2 2) = false :=
  ⟨by decide,
    canonical_rejects_diag_gap _ 0 1 (by decide) (by decide) (by decide) (by decide)⟩

/-! ### The returned permutation lists are permutations of the identity -/

lemma count_set (l : List ℕ) (v x : ℕ) :
    ∀ i : ℕ, i < l.length →
      (l.set i v).count x + (if l[i]! = x then 1 else 0) =
        l.count x + (if v = x then 1 else 0) := by
  induction l with
  | nil => intro i hi; simp at hi
  | cons hd tl ihl =>
    intro i hi
    match i with
    | 0 =>
      rw [List.set_cons_zero]
      simp only [List.getElem!_cons_zero]
      rw [List.count_cons, List.count_cons]
      simp only [beq_iff_eq]
      omega
    | i' + 1 =>
      rw [List.set_cons_succ]
      simp only [List.getElem!_cons_succ]
      rw [List.count_cons, List.count_cons]
      have := ihl i' (by simpa using hi)
      simp only [beq_iff_eq]
      omega

/-- The search-and-update bookkeeping of `forward_eliminate` keeps the
stored list a permutation of what it was. -/
lemma permSwapVals_perm {l : List ℕ} {a b : ℕ} (ha : a ∈ l) (hb : b ∈ l) :
    (permSwapVals l a b).Perm l := by
  rw [List.perm_iff_count]
  intro x
  have hia : l.indexOf a < l.length := List.indexOf_lt_length.mpr ha
  have hib : l.indexOf b < l.length := List.indexOf_lt_length.mpr hb
  have hga : l[l.indexOf a]! = a := by
    rw [getElem!_pos l _ hia]
    exact List.getElem_indexOf hia
  have hgb : l[l.indexOf b]! = b := by
    rw [getElem!_pos l _ hib]
    exact List.getElem_indexOf hib
  have hlen : (l.set (l.indexOf a) b).length = l.length := by
    rw [List.length_set]
  have hgb2 : (l.set (l.indexOf a) b)[l.indexOf b]! = b := by
    rw [getElem!_pos _ _ (by omega), List.getElem_set]
    split
    · rfl
    · rw [getElem!_pos l _ hib] at hgb
      exact hgb
  have h1 := count_set l b x (l.indexOf a) hia
  have h2 := count_set (l.set (l.indexOf a) b) a x (l.indexOf b) (by omega)
  rw [permSwapVals]
  rw [hga] at h1
  rw [hgb2] at h2
  split_ifs at h1 h2 <;> omega

lemma elimLoop_perm {m n nb : ℕ} :
    ∀ (fuel : ℕ) (A : Mat m n) (b : Mat m nb) (rp cp : List ℕ) (row : ℕ),
      row + fuel ≤ min m n →
      rp.Perm (List.range m) → cp.Perm (List.range n) →
      (elimLoop A b rp cp row fuel).2.2.1.Perm (List.range m) ∧
        (elimLoop A b rp cp row fuel).2.2.2.Perm (List.range n) := by
  intro fuel
  induction fuel with
  | zero => intro A b rp cp row hle hrp hcp; exact ⟨hrp, hcp⟩
  | succ fuel ih =>
    intro A b rp cp row hle hrp hcp
    rw [elimLoop]
    by_cases h0 : ent A row row = 0
    · rw [if_pos h0]
      rcases hfp : findPivot A row with _ | ⟨pr, pc⟩
      · exact ⟨hrp, hcp⟩
      · obtain ⟨hrpr, hprm, hrpc, hpcn, hne⟩ := findPivot_some hfp
        have hrp1 : (if pr ≠ row then permSwapVals rp row pr else rp).Perm
            (List.range m) := by
          by_cases hprk : pr ≠ row
          · rw [if_pos hprk]
            exact (permSwapVals_perm
              (hrp.mem_iff.mpr (List.mem_range.mpr (by omega)))
              (hrp.mem_iff.mpr (List.mem_range.mpr hprm))).trans hrp
          · rw [if_neg hprk]; exact hrp
        have hcp1 : (if pc ≠ row then permSwapVals cp row pc else cp).Perm
            (List.range n) := by
          by_cases hpck : pc ≠ row
          · rw [if_pos hpck]
            exact (permSwapVals_perm
              (hcp.mem_iff.mpr (List.mem_range.mpr (by omega)))
              (hcp.mem_iff.mpr (List.mem_range.mpr hpcn))).trans hcp
          · rw [if_neg hpck]; exact hcp
        exact ih _ _ _ _ _ (by omega) hrp1 hcp1
    · rw [if_neg h0]
      exact ih _ _ _ _ _ (by omega) hrp hcp

/-- C5: the two lists returned by `forward_eliminate` are rearrangements of
the identity lists `0..rows-1` and `0..cols-1`: each swap updates the
stored entries for both positions, so the mapping stays a bijection. -/
theorem forward_eliminate_perms_are_bijections {m n nb : ℕ} (A : Mat m n) (b : Mat m nb) :
    (forward_eliminate A b).2.2.1.Perm (List.range m) ∧
      (forward_eliminate A b).2.2.2.Perm (List.range n) :=
  elimLoop_perm (min m n) A b _ _ 0 (by omega) (List.Perm.refl _) (List.Perm.refl _)

/-! ### Rank bridge: the algorithmic rank equals `Matrix.rank` -/

lemma sum_indL {N : ℕ} (v : ℕ) (hv : v < N) (f : Fin N → GF2) :
    (∑ l : Fin N, (if v = l.val then 1 else 0) * f l) = f ⟨v, hv⟩ := by
  rw [Finset.sum_eq_single (⟨v, hv⟩ : Fin N)]
  · rw [if_pos rfl, one_mul]
  · intro x _ hx
    rw [if_neg (fun hc => hx (Fin.ext hc.symm)), zero_mul]
  · intro hc
    exact absurd (Finset.mem_univ _) hc

lemma sum_indL2 {N : ℕ} (v : ℕ) (hv : v < N) (f : Fin N → GF2) :
    (∑ l : Fin N, (if l.val = v then 1 else 0) * f l) = f ⟨v, hv⟩ := by
  rw [Finset.sum_eq_single (⟨v, hv⟩ : Fin N)]
  · rw [if_pos rfl, one_mul]
  · intro x _ hx
    rw [if_neg (fun hc => hx (Fin.ext hc)), zero_mul]
  · intro hc
    exact absurd (Finset.mem_univ _) hc

lemma sum_indR {N : ℕ} (v : ℕ) (hv : v < N) (f : Fin N → GF2) :
    (∑ l : Fin N, f l * (if l.val = v then 1 else 0)) = f ⟨v, hv⟩ := by
  rw [Finset.sum_eq_single (⟨v, hv⟩ : Fin N)]
  · rw [if_pos rfl, mul_one]
  · intro x _ hx
    rw [if_neg (fun hc => hx (Fin.ext hc)), mul_zero]
  · intro hc
    exact absurd (Finset.mem_univ _) hc

/-- Row-selection matrix: multiplying by it on the left realizes
`i ↦ row σ i`. -/
def rowSelect {m : ℕ} (σ : Fin m → Fin m) : Matrix (Fin m) (Fin m) GF2 :=
  Matrix.of fun i l => if l = σ i then 1 else 0

lemma rowSelect_mul {m nb : ℕ} (σ : Fin m → Fin m) (B : Matrix (Fin m) (Fin nb) GF2) :
    rowSelect σ * B = Matrix.of fun i j => B (σ i) j := by
  apply Matrix.ext
  intro i j
  rw [Matrix.mul_apply, Matrix.of_apply]
  rw [Finset.sum_eq_single (σ i)]
  · rw [rowSelect, Matrix.of_apply, if_pos rfl, one_mul]
  · intro x _ hx
    rw [rowSelect, Matrix.of_apply, if_neg hx, zero_mul]
  · intro hc
    exact absurd (Finset.mem_univ _) hc

lemma rank_rowPerm {m n : ℕ} (σ τ : Fin m → Fin m) (hστ : ∀ i, σ (τ i) = i)
    (A : Mat m n) : (Matrix.of fun i j => A (σ i) j : Mat m n).rank = A.rank := by
  have h1 : rowSelect σ * A = Matrix.of fun i j => A (σ i) j := rowSelect_mul σ A
  have h2 : rowSelect τ * (rowSelect σ * A) = A := by
    rw [rowSelect_mul σ A, rowSelect_mul τ _]
    apply Matrix.ext
    intro i j
    show A (σ (τ i)) j = A i j
    rw [hστ]
  apply le_antisymm
  · rw [← h1]
    exact Matrix.rank_mul_le_right _ _
  · have h3 := Matrix.rank_mul_le_right (rowSelect τ) (rowSelect σ * A)
    rw [h2, h1] at h3
    exact h3

/-- Column-selection matrix: multiplying by it on the right realizes
`j ↦ column q j`. -/
def colSelect {n : ℕ} (q : Fin n → Fin n) : Matrix (Fin n) (Fin n) GF2 :=
  Matrix.of fun l j => if l = q j then 1 else 0

lemma mul_colSelect {mb n : ℕ} (q : Fin n → Fin n) (B : Matrix (Fin mb) (Fin n) GF2) :
    B * colSelect q = Matrix.of fun i j => B i (q j) := by
  apply Matrix.ext
  intro i j
  rw [Matrix.mul_apply, Matrix.of_apply]
  rw [Finset.sum_eq_single (q j)]
  · rw [colSelect, Matrix.of_apply, if_pos rfl, mul_one]
  · intro x _ hx
    rw [colSelect, Matrix.of_apply, if_neg hx, mul_zero]
  · intro hc
    exact absurd (Finset.mem_univ _) hc

lemma rank_colPerm {m n : ℕ} (q q' : Fin n → Fin n) (hqq' : ∀ j, q (q' j) = j)
    (A : Mat m n) : (Matrix.of fun i j => A i (q j) : Mat m n).rank = A.rank := by
  have h1 : A * colSelect q = Matrix.of fun i j => A i (q j) := mul_colSelect q A
  have h2 : (A * colSelect q) * colSelect q' = A := by
    rw [mul_colSelect q A, mul_colSelect q' _]
    apply Matrix.ext
    intro i j
    show A i (q (q' j)) = A i j
    rw [hqq']
  apply le_antisymm
  · rw [← h1]
    exact Matrix.rank_mul_le_left _ _
  · have h3 := Matrix.rank_mul_le_left (A * colSelect q) (colSelect q')
    rw [h2, h1] at h3
    exact h3

lemma swap_row_eq {m n : ℕ} (A : Mat m n) {r1 r2 : ℕ} (h1 : r1 < m) (h2 : r2 < m) :
    swap_row A r1 r2 =
      Matrix.of fun i j => A (Equiv.swap ⟨r1, h1⟩ ⟨r2, h2⟩ i) j := by
  apply Matrix.ext
  intro i j
  rw [swap_row, Matrix.of_apply, Matrix.of_apply, Equiv.swap_apply_def]
  by_cases hc1 : i.val = r1
  · rw [if_pos hc1, if_pos (Fin.ext hc1), ent_mk A h2 j.isLt]
  · rw [if_neg hc1, if_neg (fun hc => hc1 (Fin.val_eq_of_eq hc))]
    by_cases hc2 : i.val = r2
    · rw [if_pos hc2, if_pos (Fin.ext hc2), ent_mk A h1 j.isLt]
    · rw [if_neg hc2, if_neg (fun hc => hc2 (Fin.val_eq_of_eq hc))]

lemma rank_swap_row {m n : ℕ} (A : Mat m n) {r1 r2 : ℕ} (h1 : r1 < m) (h2 : r2 < m) :
    (swap_row A r1 r2).rank = A.rank := by
  rw [swap_row_eq A h1 h2]
  exact rank_rowPerm _ _ (fun i => Equiv.swap_apply_self _ _ _) A

lemma swap_col_eq {m n : ℕ} (A : Mat m n) {c1 c2 : ℕ} (h1 : c1 < n) (h2 : c2 < n) :
    swap_col A c1 c2 =
      Matrix.of fun i j => A i (Equiv.swap ⟨c1, h1⟩ ⟨c2, h2⟩ j) := by
  apply Matrix.ext
  intro i j
  rw [swap_col, Matrix.of_apply, Matrix.of_apply, Equiv.swap_apply_def]
  by_cases hc1 : j.val = c1
  · rw [if_pos hc1, if_pos (Fin.ext hc1), ent_mk A i.isLt h2]
  · rw [if_neg hc1, if_neg (fun hc => hc1 (Fin.val_eq_of_eq hc))]
    by_cases hc2 : j.val = c2
    · rw [if_pos hc2, if_pos (Fin.ext hc2), ent_mk A i.isLt h1]
    · rw [if_neg hc2, if_neg (fun hc => hc2 (Fin.val_eq_of_eq hc))]

lemma rank_swap_col {m n : ℕ} (A : Mat m n) {c1 c2 : ℕ} (h1 : c1 < n) (h2 : c2 < n) :
    (swap_col A c1 c2).rank = A.rank := by
  rw [swap_col_eq A h1 h2]
  exact rank_colPerm _ _ (fun j => Equiv.swap_apply_self _ _ _) A

/-- The row-elimination operator of one pivot step, as a matrix. -/
def elimMat {m n : ℕ} (A : Mat m n) (k : ℕ) : Matrix (Fin m) (Fin m) GF2 :=
  Matrix.of fun i l =>
    (if i = l then 1 else 0) +
      (if l.val = k ∧ i.val ≠ k ∧ ent A i.val k ≠ 0 then 1 else 0)

lemma elimMat_mul {m n nb : ℕ} (A : Mat m n) {k : ℕ} (hk : k < m)
    (B : Matrix (Fin m) (Fin nb) GF2) :
    elimMat A k * B = Matrix.of fun i j =>
      if i.val ≠ k ∧ ent A i.val k ≠ 0 then B i j + B ⟨k, hk⟩ j else B i j := by
  apply Matrix.ext
  intro i j
  rw [Matrix.mul_apply, Matrix.of_apply]
  have hsum : ∀ l : Fin m, elimMat A k i l * B l j =
      (if i = l then 1 else 0) * B l j +
        (if l.val = k ∧ i.val ≠ k ∧ ent A i.val k ≠ 0 then 1 else 0) * B l j := by
    intro l
    rw [elimMat, Matrix.of_apply, add_mul]
  rw [Finset.sum_congr rfl (fun l _ => hsum l), Finset.sum_add_distrib]
  have hfirst : (∑ l : Fin m, (if i = l then 1 else 0) * B l j) = B i j :=
    sum_indL i.val i.isLt (fun l => B l j) |>.symm ▸ (by
      have : (∑ l : Fin m, (if i = l then 1 else 0) * B l j) =
          ∑ l : Fin m, (if i.val = l.val then 1 else 0) * B l j := by
        apply Finset.sum_congr rfl
        intro l _
        congr 1
        by_cases hc : i = l
        · rw [if_pos hc, if_pos (Fin.val_eq_of_eq hc)]
        · rw [if_neg hc, if_neg (fun hv => hc (Fin.ext hv))]
      rw [this, sum_indL i.val i.isLt (fun l => B l j)])
  by_cases hC : i.val ≠ k ∧ ent A i.val k ≠ 0
  · rw [if_pos hC, hfirst]
    congr 1
    have hsecond : (∑ l : Fin m,
        (if l.val = k ∧ i.val ≠ k ∧ ent A i.val k ≠ 0 then 1 else 0) * B l j) =
        ∑ l : Fin m, (if l.val = k then 1 else 0) * B l j := by
      apply Finset.sum_congr rfl
      intro l _
      congr 1
      by_cases hl : l.val = k
      · rw [if_pos ⟨hl, hC⟩, if_pos hl]
      · rw [if_neg (fun hc => hl hc.1), if_neg hl]
    rw [hsecond, sum_indL2 k hk (fun l => B l j)]
  · rw [if_neg hC, hfirst]
    have hsecond : (∑ l : Fin m,
        (if l.val = k ∧ i.val ≠ k ∧ ent A i.val k ≠ 0 then 1 else 0) * B l j) = 0 := by
      apply Finset.sum_eq_zero
      intro l _
      rw [if_neg (fun hc => hC hc.2), zero_mul]
    rw [hsecond, add_zero]

lemma eliminate_eq_mul {m n : ℕ} (A : Mat m n) {k : ℕ} (hk : k < m) :
    eliminate A k = elimMat A k * A := by
  rw [elimMat_mul A hk A]
  apply Matrix.ext
  intro i j
  rw [eliminate, Matrix.of_apply, Matrix.of_apply, ent_mk A hk j.isLt]

lemma elimMat_elimMat {m n nb : ℕ} (A : Mat m n) {k : ℕ} (hk : k < m)
    (B : Matrix (Fin m) (Fin nb) GF2) :
    elimMat A k * (elimMat A k * B) = B := by
  rw [elimMat_mul A hk, elimMat_mul A hk]
  apply Matrix.ext
  intro i j
  rw [Matrix.of_apply]
  by_cases hC : i.val ≠ k ∧ ent A i.val k ≠ 0
  · rw [if_pos hC, Matrix.of_apply, Matrix.of_apply, if_pos hC,
      if_neg (fun hc => hc.1 rfl)]
    rw [add_assoc, gf2_add_self, add_zero]
  · rw [if_neg hC, Matrix.of_apply, if_neg hC]

lemma rank_eliminate {m n : ℕ} (A : Mat m n) {k : ℕ} (hk : k < m) :
    (eliminate A k).rank = A.rank := by
  rw [eliminate_eq_mul A hk]
  apply le_antisymm
  · exact Matrix.rank_mul_le_right _ _
  · have h3 := Matrix.rank_mul_le_right (elimMat A k) (elimMat A k * A)
    rw [elimMat_elimMat A hk A] at h3
    exact h3

lemma elimLoop_rank {m n nb : ℕ} :
    ∀ (fuel : ℕ) (A : Mat m n) (b : Mat m nb) (rp cp : List ℕ) (row : ℕ),
      row + fuel ≤ min m n →
      ((elimLoop A b rp cp row fuel).1).rank = A.rank := by
  intro fuel
  induction fuel with
  | zero => intro A b rp cp row hle; rfl
  | succ fuel ih =>
    intro A b rp cp row hle
    have hrm : row < m := by omega
    have hrn : row < n := by omega
    rw [elimLoop]
    by_cases h0 : ent A row row = 0
    · rw [if_pos h0]
      rcases hfp : findPivot A row with _ | ⟨pr, pc⟩
      · rfl
      · obtain ⟨hrpr, hprm, hrpc, hpcn, hne⟩ := findPivot_some hfp
        have hA1 : (if pr ≠ row then swap_row A row pr else A).rank = A.rank := by
          by_cases hprk : pr ≠ row
          · rw [if_pos hprk]
            exact rank_swap_row A hrm hprm
          · rw [if_neg hprk]
        have hA2 : (if pc ≠ row then
            swap_col (if pr ≠ row then swap_row A row pr else A) row pc
            else if pr ≠ row then swap_row A row pr else A).rank = A.rank := by
          by_cases hpck : pc ≠ row
          · rw [if_pos hpck, rank_swap_col _ hrn hpcn, hA1]
          · rw [if_neg hpck, hA1]
        rw [ih _ _ _ _ _ (by omega), rank_eliminate _ hrm, hA2]
    · rw [if_neg h0]
      rw [ih _ _ _ _ _ (by omega), rank_eliminate A hrm]

/-- A canonical-form matrix factors as `B * C` with inner dimension its
diagonal rank, and a one-sided inverse exhibits the reverse inequality. -/
lemma rank_canonical {m n : ℕ} {A : Mat m n} (h : is_canonical_form A = true) :
    A.rank = diagNonzeroCount A := by
  obtain ⟨hT, hblock, hrows⟩ := canonical_structure h
  have hrm : diagNonzeroCount A ≤ m := le_trans hT (min_le_left m n)
  have hrn : diagNonzeroCount A ≤ n := le_trans hT (min_le_right m n)
  set r := diagNonzeroCount A with hrdef
  set B := (Matrix.of (fun i l => if i.val = l.val then 1 else 0) :
    Matrix (Fin m) (Fin r) GF2) with hBdef
  set C := (Matrix.of (fun l j => ent A l.val j.val) :
    Matrix (Fin r) (Fin n) GF2) with hCdef
  set P := (Matrix.of (fun j l => if j.val = l.val then 1 else 0) :
    Matrix (Fin n) (Fin r) GF2) with hPdef
  have hBC : B * C = A := by
    apply Matrix.ext
    intro i j
    rw [Matrix.mul_apply]
    by_cases hi : i.val < r
    · have hcg : ∀ l : Fin r, B i l * C l j =
          (if i.val = l.val then 1 else 0) * (fun l : Fin r => ent A l.val j.val) l := by
        intro l
        rw [hBdef, hCdef, Matrix.of_apply, Matrix.of_apply]
      rw [Finset.sum_congr rfl (fun l _ => hcg l), sum_indL i.val hi, ← ent_eq A i j]
    · have hz : ∀ l : Fin r, B i l * C l j = 0 := by
        intro l
        rw [hBdef, Matrix.of_apply, if_neg (by omega), zero_mul]
      rw [Finset.sum_eq_zero (fun l _ => hz l)]
      rw [← ent_eq A i j, hrows i.val (by omega) i.isLt j.val j.isLt]
  have hBtA : B.transpose * A = C := by
    apply Matrix.ext
    intro l j
    rw [Matrix.mul_apply]
    have hcg : ∀ i : Fin m, B.transpose l i * A i j =
        (if i.val = l.val then 1 else 0) * (fun i : Fin m => A i j) i := by
      intro i
      rw [Matrix.transpose_apply, hBdef, Matrix.of_apply]
    rw [Finset.sum_congr rfl (fun i _ => hcg i), sum_indL2 l.val (by omega),
      hCdef, Matrix.of_apply, ent_mk A (by omega) j.isLt]
  have hCP : C * P = (1 : Matrix (Fin r) (Fin r) GF2) := by
    apply Matrix.ext
    intro l l'
    rw [Matrix.mul_apply]
    have hcg : ∀ j : Fin n, C l j * P j l' =
        (fun j : Fin n => ent A l.val j.val) j * (if j.val = l'.val then 1 else 0) := by
      intro j
      rw [hCdef, hPdef, Matrix.of_apply, Matrix.of_apply]
    rw [Finset.sum_congr rfl (fun j _ => hcg j), sum_indR l'.val (by omega),
      hblock l.val l'.val (by omega) (by omega), Matrix.one_apply]
    by_cases hll : l = l'
    · rw [if_pos (Fin.val_eq_of_eq hll), if_pos hll]
    · rw [if_neg (fun hv => hll (Fin.ext hv)), if_neg hll]
  apply le_antisymm
  · calc A.rank = (B * C).rank := by rw [hBC]
      _ ≤ C.rank := Matrix.rank_mul_le_right _ _
      _ ≤ Fintype.card (Fin r) := Matrix.rank_le_card_height _
      _ = r := Fintype.card_fin r
  · calc r = Fintype.card (Fin r) := (Fintype.card_fin r).symm
      _ = (1 : Matrix (Fin r) (Fin r) GF2).rank := Matrix.rank_one.symm
      _ = (C * P).rank := by rw [hCP]
      _ ≤ C.rank := Matrix.rank_mul_le_left _ _
      _ = (B.transpose * A).rank := by rw [hBtA]
      _ ≤ A.rank := Matrix.rank_mul_le_right _ _

/-- The rank computed by `get_rank` coincides with the mathematical rank of
the matrix over GF(2). -/
lemma get_rank_eq_rank {m n : ℕ} (A : Mat m n) : get_rank A = A.rank := by
  rw [get_rank]
  by_cases hc : is_canonical_form A = true
  · rw [if_pos hc, rank_canonical hc]
  · rw [if_neg hc]
    have h1 : is_canonical_form (forward_eliminate A (0 : Mat m 1)).1 = true :=
      elimLoop_canonical (min m n) A (0 : Mat m 1) _ _ 0 (by omega) (inv_zero A)
    have h2 : ((forward_eliminate A (0 : Mat m 1)).1).rank = A.rank :=
      elimLoop_rank (min m n) A (0 : Mat m 1) _ _ 0 (by omega)
    rw [← rank_canonical h1, h2]

/-- C7: `get_rank` is invariant under a single row swap, a single column
swap, and arbitrary bijective row or column permutations. -/
theorem get_rank_invariant_under_permutation {m n : ℕ} (A : Mat m n)
    (r1 r2 c1 c2 : ℕ) (p : Fin m → Fin m) (q : Fin n → Fin n)
    (hr1 : r1 < m) (hr2 : r2 < m) (hc1 : c1 < n) (hc2 : c2 < n)
    (hp : Function.Bijective p) (hq : Function.Bijective q) :
    get_rank (swap_row A r1 r2) = get_rank A ∧
      get_rank (swap_col A c1 c2) = get_rank A ∧
      get_rank (permute_row A p) = get_rank A ∧
      get_rank (permute_col A q) = get_rank A := by
  refine ⟨?_, ?_, ?_, ?_⟩ <;> rw [get_rank_eq_rank, get_rank_eq_rank]
  · exact rank_swap_row A hr1 hr2
  · exact rank_swap_col A hc1 hc2
  · exact rank_rowPerm p (Equiv.ofBijective p hp).symm
      (fun i => (Equiv.ofBijective p hp).apply_symm_apply i) A
  · exact rank_colPerm q (Equiv.ofBijective q hq).symm
      (fun j => (Equiv.ofBijective q hq).apply_symm_apply j) A

theorem get_rank_invariant_under_permutation_witness :
    ((0 : ℕ) < 2 ∧ (1 : ℕ) < 2 ∧ Function.Bijective (![1, 0] : Fin 2 → Fin 2)) ∧
    (get_rank (swap_row (!![1,1;0,1] : Mat 2 2) 0 1) = get_rank (!![1,1;0,1] : Mat 2 2) ∧
      get_rank (swap_col (!![1,1;0,1] : Mat 2 2) 0 1) = get_rank (!![1,1;0,1] : Mat 2 2) ∧
      get_rank (permute_row (!![1,1;0,1] : Mat 2 2) ![1, 0]) = get_rank (!![1,1;0,1] : Mat 2 2) ∧
      get_rank (permute_col (!![1,1;0,1] : Mat 2 2) ![1, 0]) = get_rank (!![1,1;0,1] : Mat 2 2)) :=
  ⟨⟨by decide, by decide, by decide⟩,
    get_rank_invariant_under_permutation (!![1,1;0,1] : Mat 2 2) 0 1 0 1 ![1, 0] ![1, 0]
      (by decide) (by decide) (by decide) (by decide) (by decide) (by decide)⟩

/-! ### The solver: unsatisfiability marking and the full-rank case -/

lemma diagNonzeroCount_le {m n : ℕ} (A : Mat m n) : diagNonzeroCount A ≤ min m n := by
  rw [diagNonzeroCount]
  calc (nonzeroDiagIdx A).length ≤ (List.range (min m n)).length :=
        List.length_filter_le _ _
    _ = min m n := List.length_range _

lemma get_rank_le {m n : ℕ} (A : Mat m n) : get_rank A ≤ min m n := by
  rw [get_rank]
  split
  · exact diagNonzeroCount_le A
  · exact diagNonzeroCount_le _

lemma backCol_guard {m n nb : ℕ} (A : Mat m n) (rank : ℕ) (b : Mat m nb) (j : Fin nb) :
    ((List.range m).any (fun i => decide (rank ≤ i) && decide (ent b i j.val ≠ 0)) = true)
      ↔ ∃ i : Fin m, rank ≤ i.val ∧ b i j ≠ 0 := by
  rw [List.any_eq_true]
  constructor
  · rintro ⟨x, hx, hpx⟩
    rw [Bool.and_eq_true, decide_eq_true_eq, decide_eq_true_eq] at hpx
    have hxm := List.mem_range.mp hx
    refine ⟨⟨x, hxm⟩, hpx.1, ?_⟩
    rw [← ent_eq b ⟨x, hxm⟩ j]
    exact hpx.2
  · rintro ⟨i, hri, hbi⟩
    refine ⟨i.val, List.mem_range.mpr i.isLt, ?_⟩
    rw [Bool.and_eq_true, decide_eq_true_eq, decide_eq_true_eq]
    exact ⟨hri, by rw [ent_eq b i j]; exact hbi⟩

/-- C2: a column of the output of `backward_substitute` is filled with the
unsatisfiable marker for all `cols` rows exactly when the corresponding
column of `b` has a nonzero entry at some row index `≥ rank`; otherwise no
entry of that column is the marker. -/
theorem backward_substitute_unsat_marking {m n nb : ℕ} (A : Mat m n) (b : Mat m nb)
    (j : Fin nb) (hA : is_canonical_form A = true) :
    ((∃ i : Fin m, get_rank A ≤ i.val ∧ b i j ≠ 0) →
        ∀ i : Fin n, (backward_substitute A b).1 i j = SolEntry.nan) ∧
      (¬ (∃ i : Fin m, get_rank A ≤ i.val ∧ b i j ≠ 0) →
        ∀ i : Fin n, (backward_substitute A b).1 i j ≠ SolEntry.nan) := by
  have hrn : get_rank A ≤ n := le_trans (get_rank_le A) (min_le_right m n)
  constructor
  · intro hex i
    have hg := (backCol_guard A (get_rank A) b j).mpr hex
    show (backCol A (get_rank A) b j).getD i.val SolEntry.nan = SolEntry.nan
    rw [backCol, if_pos hg]
    have hlt : i.val < (List.replicate n SolEntry.nan).length := by
      rw [List.length_replicate]; exact i.isLt
    rw [List.getD_eq_getElem _ _ hlt, List.getElem_replicate]
  · intro hnex i
    have hg : ¬ ((List.range m).any
        (fun x => decide (get_rank A ≤ x) && decide (ent b x j.val ≠ 0)) = true) :=
      fun hq => hnex ((backCol_guard A (get_rank A) b j).mp hq)
    show (backCol A (get_rank A) b j).getD i.val SolEntry.nan ≠ SolEntry.nan
    rw [backCol, if_neg hg]
    have hlen : (((List.range (get_rank A)).map
        (fun row => solEntryAt A (get_rank A) b j row)) ++
        ((List.range (n - get_rank A)).map
          (fun k => SolEntry.expr false [k]))).length = n := by
      rw [List.length_append, List.length_map, List.length_map,
        List.length_range, List.length_range]
      omega
    have hlt : i.val < (((List.range (get_rank A)).map
        (fun row => solEntryAt A (get_rank A) b j row)) ++
        ((List.range (n - get_rank A)).map
          (fun k => SolEntry.expr false [k]))).length := by
      rw [hlen]; exact i.isLt
    rw [List.getD_eq_getElem _ _ hlt]
    intro hc
    have hmem := List.getElem_mem hlt
    rw [hc] at hmem
    rcases List.mem_append.mp hmem with hm | hm
    · obtain ⟨row, _, hrow⟩ := List.mem_map.mp hm
      rw [solEntryAt] at hrow
      exact SolEntry.noConfusion hrow
    · obtain ⟨k, _, hk⟩ := List.mem_map.mp hm
      exact SolEntry.noConfusion hk

theorem backward_substitute_unsat_marking_witness :
    is_canonical_form (!![1,0;0,0] : Mat 2 2) = true ∧
    (((∃ i : Fin 2, get_rank (!![1,0;0,0] : Mat 2 2) ≤ i.val ∧
          (!![0;1] : Mat 2 1) i 0 ≠ 0) →
        ∀ i : Fin 2,
          (backward_substitute (!![1,0;0,0] : Mat 2 2) (!![0;1] : Mat 2 1)).1 i 0 =
            SolEntry.nan) ∧
      (¬ (∃ i : Fin 2, get_rank (!![1,0;0,0] : Mat 2 2) ≤ i.val ∧
          (!![0;1] : Mat 2 1) i 0 ≠ 0) →
        ∀ i : Fin 2,
          (backward_substitute (!![1,0;0,0] : Mat 2 2) (!![0;1] : Mat 2 1)).1 i 0 ≠
            SolEntry.nan)) :=
  ⟨by decide, backward_substitute_unsat_marking _ _ 0 (by decide)⟩

/-! ### The full-column-rank solve -/

lemma gf2_if_eq_one (y : GF2) : (if decide (y = 1) = true then (1 : GF2) else 0) = y := by
  revert y; decide

lemma backCol_full_rank {m n nb : ℕ} (A : Mat m n) (b : Mat m nb) (j : Fin nb)
    (hr : get_rank A = n)
    (hb : ∀ i : Fin m, n ≤ i.val → ∀ j' : Fin nb, b i j' = 0) (i : Fin n) :
    (backCol A (get_rank A) b j).getD i.val SolEntry.nan =
      SolEntry.expr (ent b i.val j.val = 1) [] := by
  have hg : ¬ ((List.range m).any
      (fun x => decide (get_rank A ≤ x) && decide (ent b x j.val ≠ 0)) = true) := by
    intro hq
    obtain ⟨ii, hri, hbi⟩ := (backCol_guard A (get_rank A) b j).mp hq
    exact hbi (hb ii (hr ▸ hri) j)
  rw [backCol, if_neg hg, hr, Nat.sub_self, List.range_zero, List.map_nil,
    List.append_nil]
  have hlt : i.val < ((List.range n).map
      (fun row => solEntryAt A n b j row)).length := by
    rw [List.length_map, List.length_range]; exact i.isLt
  rw [List.getD_eq_getElem _ _ hlt, List.getElem_map, List.getElem_range, solEntryAt]
  have hfil : (List.range n).filter
      (fun jj => decide (n ≤ jj ∧ ent A i.val jj ≠ 0)) = [] := by
    rw [List.filter_eq_nil_iff]
    intro a ha
    have han := List.mem_range.mp ha
    simp only [decide_eq_true_eq, Bool.not_eq_true]
    rintro ⟨h1, _⟩
    omega
  rw [hfil, List.map_nil]

/-- C3 counterexample: on the forward-eliminated full-column-rank matrix
`[[1],[0]]` with right-hand side `[[0],[1]]` the solver returns the
unsatisfiable marker, not a boolean constant, so the claim fails for
right-hand sides that are nonzero below the rank. -/
theorem backsub_full_rank_counterexample :
    is_canonical_form (!![1; 0] : Mat 2 1) = true ∧
    get_rank (!![1; 0] : Mat 2 1) = 1 ∧
    (backward_substitute (!![1; 0] : Mat 2 1) (!![0; 1] : Mat 2 1)).1 0 0 =
      SolEntry.nan := by
  refine ⟨by decide, by decide, by decide⟩

/-- C3 (amended): for a forward-eliminated matrix of full column rank and a
right-hand side that vanishes on all rows `≥ rank` (so that every column is
satisfiable), `backward_substitute` returns no free symbols, a solution
matrix of boolean constants, and `A.matmul(x) == b` holds. -/
theorem backsub_full_rank_solves {m n nb : ℕ} (A : Mat m n) (b : Mat m nb)
    (hA : is_canonical_form A = true) (hr : get_rank A = n)
    (hb : ∀ i : Fin m, n ≤ i.val → ∀ j : Fin nb, b i j = 0) :
    (backward_substitute A b).2 = [] ∧
      (∀ (i : Fin n) (j : Fin nb), ((backward_substitute A b).1 i j).isConst = true) ∧
      matmul A ((backward_substitute A b).1.map SolEntry.toGF2) = b := by
  refine ⟨?_, ?_, ?_⟩
  · show List.range (n - get_rank A) = []
    rw [hr, Nat.sub_self, List.range_zero]
  · intro i j
    show ((backCol A (get_rank A) b j).getD i.val SolEntry.nan).isConst = true
    rw [backCol_full_rank A b j hr hb i]
    rfl
  · have hcount : diagNonzeroCount A = n := by
      have hgr : get_rank A = diagNonzeroCount A := by rw [get_rank, if_pos hA]
      omega
    obtain ⟨hT, hblock, hrows⟩ := canonical_structure hA
    rw [hcount] at hblock hrows
    apply Matrix.ext
    intro i j
    rw [matmul, Matrix.mul_apply]
    have hXl : ∀ l : Fin n,
        ((backward_substitute A b).1.map SolEntry.toGF2) l j = ent b l.val j.val := by
      intro l
      rw [Matrix.map_apply]
      show SolEntry.toGF2
        ((backCol A (get_rank A) b j).getD l.val SolEntry.nan) = ent b l.val j.val
      rw [backCol_full_rank A b j hr hb l]
      exact gf2_if_eq_one _
    by_cases hi : i.val < n
    · have hAl : ∀ l : Fin n, A i l = if i.val = l.val then 1 else 0 := by
        intro l
        rw [← ent_eq A i l, hblock i.val l.val hi l.isLt]
      calc (∑ l : Fin n, A i l * ((backward_substitute A b).1.map SolEntry.toGF2) l j)
          = ∑ l : Fin n, (if i.val = l.val then 1 else 0) *
              (fun l : Fin n => ent b l.val j.val) l :=
            Finset.sum_congr rfl (fun l _ => by rw [hAl, hXl])
        _ = ent b i.val j.val := sum_indL i.val hi _
        _ = b i j := ent_eq b i j
    · rw [Finset.sum_eq_zero, Eq.comm]
      · exact hb i (by omega) j
      · intro l _
        rw [← ent_eq A i l, hrows i.val (by omega) i.isLt l.val l.isLt, zero_mul]

theorem backsub_full_rank_solves_witness :
    (is_canonical_form (!![1; 0] : Mat 2 1) = true ∧
      get_rank (!![1; 0] : Mat 2 1) = 1 ∧
      (∀ i : Fin 2, 1 ≤ i.val → ∀ j : Fin 1, (!![1; 0] : Mat 2 1) i j = 0)) ∧
    ((backward_substitute (!![1; 0] : Mat 2 1) (!![1; 0] : Mat 2 1)).2 = [] ∧
      (∀ (i : Fin 1) (j : Fin 1),
        ((backward_substitute (!![1; 0] : Mat 2 1) (!![1; 0] : Mat 2 1)).1 i j).isConst
          = true) ∧
      matmul (!![1; 0] : Mat 2 1)
        ((backward_substitute (!![1; 0] : Mat 2 1) (!![1; 0] : Mat 2 1)).1.map
          SolEntry.toGF2) = (!![1; 0] : Mat 2 1)) :=
  ⟨⟨by decide, by decide, by decide⟩,
    backsub_full_rank_solves (!![1; 0] : Mat 2 1) (!![1; 0] : Mat 2 1)
      (by decide) (by decide) (by decide)⟩

/-! ### `permute_row`/`permute_col` perform no bijectivity check -/

/-- C8 counterexample: the non-bijective index list `[0, 0]` is applied by
`permute_row` without any error, silently replacing row 1 by a copy of
row 0. -/
theorem permute_row_nonbijective_silent :
    ¬ Function.Bijective (![0, 0] : Fin 2 → Fin 2) ∧
    permute_row (!![0; 1] : Mat 2 1) ![0, 0] = (!![0; 0] : Mat 2 1) ∧
    permute_row (!![0; 1] : Mat 2 1) ![0, 0] ≠ (!![0; 1] : Mat 2 1) := by
  refine ⟨by decide, by decide, by decide⟩

/-- C8 (amended): `permute_row`/`permute_col` perform numpy fancy indexing:
any in-range index list is applied without error — row `i` of the result is
row `p i` of the input (likewise for columns) — with no bijectivity check. -/
theorem permute_applies_index_list {m n L : ℕ} (A : Mat m n)
    (p : Fin L → Fin m) (q : Fin L → Fin n) :
    (∀ (i : Fin L) (j : Fin n), permute_row A p i j = A (p i) j) ∧
      (∀ (i : Fin m) (j : Fin L), permute_col A q i j = A i (q j)) :=
  ⟨fun _ _ => rfl, fun _ _ => rfl⟩

/-! ### `backward_substitute` mutates neither its receiver nor `b` -/

lemma get_rank_state_eq {m n : ℕ} (A : Mat m n) :
    get_rank_state A = (get_rank A, A) := by
  rw [get_rank_state, get_rank]
  by_cases hc : is_canonical_form A = true
  · rw [if_pos hc, if_pos hc]
  · rw [if_neg hc, if_neg hc]
    rfl

/-- C10: `backward_substitute` is a read-only query: the receiver and `b`
are unchanged after the call (`get_rank` eliminates on a copy), and the
state-passing rendering computes the same value. -/
theorem backward_substitute_readonly {m n nb : ℕ} (A : Mat m n) (b : Mat m nb) :
    (backward_substitute_state A b).2 = (A, b) ∧
      (backward_substitute_state A b).1 = backward_substitute A b := by
  constructor
  · show ((get_rank_state A).2, b) = (A, b)
    rw [get_rank_state_eq]
  · show backward_substitute_core A b (get_rank_state A).1 = backward_substitute A b
    rw [get_rank_state_eq]
    rfl

end Graphix
